import Mathlib

/-!
# find_songtable.c: the loose pattern scan for the m4a song table

A shallow embedding of `looseCompare`, `findSelectSong` and the part of
`findSongTable` that follows the file read (lines 82-100), with theorems about
the tolerance, the stride, the bounds and the displacement of 40.

Conventions of the embedding.

* A byte is a `Nat` (an `unsigned char` value); bytes are only compared for
  equality.
* An `unsigned char*` is a `Ptr`: the byte read at each index, `none` when the
  index lies outside the object pointed into.  A read that yields `none` makes
  the whole call `Outcome.undefined`.
* An `int` holds 32 bits in two's complement: `offset += 4` and
  `selectSongOffset += 40` are computed with `wrapInt`, which wraps at 2^31.
  In `looseCompare` the counters `i` and `d` stay at most `count`, so they do
  not wrap.
* The comparisons of an `int` with the `size_t` length convert the `int` to
  `size_t`; `sizeLt` is that test.
* The `for` loop of `findSelectSong` is run with fuel; `length + 1` rounds are
  enough (`findSelectSong_fuel`), so `Outcome.outOfFuel` is never the result.
* A buffer is a list of bytes; `ptrOf bytes` points to an object that ends with
  the buffer, `ptrBeyond bytes beyond` to memory that goes on behind it with
  whatever `beyond` yields.
-/

namespace FindSongtable

/-- An `unsigned char*`: what a read at index `i` yields, `none` outside the object. -/
abbrev Ptr := Nat → Option Nat

/-- The pointer to the first byte of an object holding exactly `bytes`. -/
def ptrOf (bytes : List Nat) : Ptr := fun i => bytes[i]?

/-- The pointer `&p[offset]`. -/
def ptrAt (p : Ptr) (offset : Nat) : Ptr := fun i => p (offset + i)

/-- What a call does: it returns an `int`, or it reads outside an object
(undefined behaviour), or the model ran out of fuel. -/
inductive Outcome where
  | ret (v : Int)
  | undefined
  | outOfFuel
  deriving DecidableEq

/-- The array `unsigned char code[30]` of lines 28-33. -/
def code : List Nat :=
  [0x00, 0xB5, 0x00, 0x04, 0x07, 0x4A, 0x08, 0x49,
   0x40, 0x0B, 0x40, 0x18, 0x83, 0x88, 0x59, 0x00,
   0xC9, 0x18, 0x89, 0x00, 0x89, 0x18, 0x0A, 0x68,
   0x01, 0x68, 0x10, 0x1C, 0x00, 0xF0]

/-- The `for (i = 0; i < count; i++)` loop of `looseCompare`, lines 42-48:
`n` rounds remain, `i` is the index and `d` the running count. -/
def looseCompareLoop (buffer search : Ptr) (m : Int) : Nat → Nat → Int → Outcome
  | 0, _, d => Outcome.ret d
  | n + 1, i, d =>
    match buffer i, search i with
    | some b, some s =>
      if b ≠ s then
        if d + 1 ≥ m then Outcome.ret (d + 1)
        else looseCompareLoop buffer search m n (i + 1) (d + 1)
      else looseCompareLoop buffer search m n (i + 1) d
    | _, _ => Outcome.undefined

/-- The function `looseCompare` of lines 36-49. -/
def looseCompare (buffer search : Ptr) (count m : Int) : Outcome :=
  if m ≤ 0 then Outcome.ret 0
  else looseCompareLoop buffer search m count.toNat 0 0

/-- The value an `int` holds when the result of an operation on `int`s is `x`:
32 bits, two's complement. -/
def wrapInt (x : Int) : Int := (x + 2147483648) % 4294967296 - 2147483648

/-- The test `(size_t)x < n` for an `int` `x` and the size `n` of an object.  A
negative `x` converts to at least 2^64 - 2^31, which is above the size of every
object, so the test holds exactly when `x` is not negative and below `n`. -/
abbrev sizeLt (x : Int) (n : Nat) : Prop := 0 ≤ x ∧ x < (n : Int)

/-- The `for (offset = 0; offset < length; offset += 4)` loop of `findSelectSong`,
lines 55-61, with the tolerance `m` that the source fixes to 8 in the call and in
the comparison.  `offset` is an `int`: the test converts it to `size_t`, the
increment wraps, and inside the loop it is not negative. -/
def scanLoop (buffer : Ptr) (length : Nat) (m : Int) : Nat → Int → Outcome
  | 0, _ => Outcome.outOfFuel
  | fuel + 1, offset =>
    if sizeLt offset length then
      match looseCompare (ptrAt buffer offset.toNat) (ptrOf code) 30 m with
      | Outcome.ret r =>
        if r < m then Outcome.ret offset
        else scanLoop buffer length m fuel (wrapInt (offset + 4))
      | Outcome.undefined => Outcome.undefined
      | Outcome.outOfFuel => Outcome.outOfFuel
    else Outcome.ret (-1)

/-- The scan of `findSelectSong` run with tolerance `m`. -/
def findSelectSongTol (buffer : Ptr) (length : Nat) (m : Int) : Outcome :=
  scanLoop buffer length m (length + 1) 0

/-- The function `findSelectSong` of lines 51-62. -/
def findSelectSong (buffer : Ptr) (length : Nat) : Outcome :=
  findSelectSongTol buffer length 8

/-- Lines 84-100 of `findSongTable` applied to the outcome of a scan: the
addition of 40 in `int`, and the test `selectSongOffset >= size` with
`selectSongOffset` converted to `size_t`. -/
def tablePointer (scan : Outcome) (size : Nat) : Outcome :=
  match scan with
  | Outcome.ret selectSongOffset =>
    if selectSongOffset = -1 then Outcome.ret (-1)
    else if ¬ sizeLt (wrapInt (selectSongOffset + 40)) size then Outcome.ret (-1)
    else Outcome.ret (wrapInt (selectSongOffset + 40))
  | Outcome.undefined => Outcome.undefined
  | Outcome.outOfFuel => Outcome.outOfFuel

/-- Lines 82-100 of `findSongTable`: the scan, the displacement of 40 and the
check against `size`. -/
def findSongTable (buffer : Ptr) (size : Nat) : Outcome :=
  match findSelectSong buffer size with
  | Outcome.ret selectSongOffset =>
    if selectSongOffset = -1 then Outcome.ret (-1)
    else if ¬ sizeLt (wrapInt (selectSongOffset + 40)) size then Outcome.ret (-1)
    else Outcome.ret (wrapInt (selectSongOffset + 40))
  | Outcome.undefined => Outcome.undefined
  | Outcome.outOfFuel => Outcome.outOfFuel

/-- The number of positions at which two byte sequences differ. -/
def mismatches : List Nat → List Nat → Nat
  | a :: as, b :: bs => (if a ≠ b then 1 else 0) + mismatches as bs
  | _, _ => 0

/-- The 30 bytes of `bytes` that start at `o` (fewer when the buffer ends before). -/
def window (bytes : List Nat) (o : Nat) : List Nat := (bytes.drop o).take 30

/-- The number of the `n` indices from `i` on at which both pointers yield a
byte and the two bytes differ. -/
def countDiffering (buffer search : Ptr) : Nat → Nat → Nat
  | 0, _ => 0
  | n + 1, i =>
    (match buffer i, search i with
      | some b, some s => if b ≠ s then 1 else 0
      | _, _ => 0) + countDiffering buffer search n (i + 1)

/-- The number of positions at which the 30 bytes that `p` yields from index
`o` on differ from `code`. -/
def differing (p : Ptr) (o : Nat) : Nat := countDiffering (ptrAt p o) (ptrOf code) 30 0

/-- Every one of the 30 reads from index `o` on yields a byte. -/
def readable (p : Ptr) (o : Nat) : Prop := ∀ i, i < 30 → p (o + i) ≠ none

/-- The pointer to a buffer holding `bytes` when a read past its end yields
`beyond i`: `none` makes that read undefined, `some b` makes it return `b`. -/
def ptrBeyond (bytes : List Nat) (beyond : Nat → Option Nat) : Ptr :=
  fun i =>
    match bytes[i]? with
    | some b => some b
    | none => beyond i

/-- The halfwords that the comment of lines 9-27 lists beside the instructions. -/
def listedHalfwords : List Nat :=
  [0xb500, 0x0400, 0x4a07, 0x4908, 0x0b40, 0x1840, 0x8883, 0x0059,
   0x18c9, 0x0089, 0x1989, 0x680a, 0x6801, 0x1c10, 0x0f00]

/-- The little-endian bytes of a list of halfwords: low byte, then high byte. -/
def littleEndian : List Nat → List Nat
  | [] => []
  | h :: hs => h % 256 :: h / 256 :: littleEndian hs

/-- Two exact copies of `code`, at offsets 0 and 32. -/
def twoCopies : List Nat := code ++ [0, 0] ++ code

/-- Four zero bytes followed by `code` at offset 4. -/
def copyAtFour : List Nat := [0, 0, 0, 0] ++ code

/-- Eight zero bytes followed by `code` at offset 8. -/
def copyAtEight : List Nat := List.replicate 8 0 ++ code

/-- The first four bytes of `code`, a buffer of length 4. -/
def codeHead : List Nat := [0x00, 0xB5, 0x00, 0x04]

/-- A buffer of one zero byte. -/
def oneByte : List Nat := [0x00]

/-- The bytes of `code` followed by twenty zero bytes, a buffer of length 50. -/
def codeThenZeros : List Nat := code ++ List.replicate 20 0

/-- A window that differs from `code` in exactly its first eight bytes, at
offset 0, and an exact copy of `code` at offset 32. -/
def eightOff : List Nat := List.replicate 8 0xFF ++ code.drop 8 ++ [0, 0] ++ code

/-- The buffer of 1000 bytes that is zero except for `code` at bytes 100..129. -/
def zeroRom : List Nat := List.replicate 100 0 ++ code ++ List.replicate 870 0

/-- The bytes of `code` followed by twenty bytes 0x11, a buffer of length 50. -/
def codeThenOnes : List Nat := code ++ List.replicate 20 0x11

/-- A buffer of 29 bytes 0xFF, shorter than the pattern. -/
def shortBuffer : List Nat := List.replicate 29 0xFF

/-- The buffer of 1000 bytes that is zero except for the 30 bytes `w` at bytes
100..129. -/
def embedAt100 (w : List Nat) : List Nat :=
  List.replicate 100 0 ++ w ++ List.replicate 870 0

/-- The pattern `code` with its first ten bytes replaced by 0xFF. -/
def tenOff : List Nat := List.replicate 10 0xFF ++ code.drop 10

/-- The pattern `code` behind `n` bytes 0xFF and in front of 102 bytes 0xFF: a
buffer of `n + 132` bytes whose only copy of `code` is at offset `n`. -/
@[irreducible] def ffThenCode (n : Nat) : List Nat :=
  List.replicate n 0xFF ++ code ++ List.replicate 102 0xFF

/-- The buffer of 2147483776 bytes with `code` at offset 2147483644, the last
multiple of 4 that an `int` holds. -/
def farBuffer : List Nat := ffThenCode 2147483644

/-- The buffer of 2147483780 bytes with `code` at offset 2147483648, one step
past the last multiple of 4 that an `int` holds. -/
def fartherBuffer : List Nat := ffThenCode 2147483648

/-! ## The matcher -/

theorem looseCompareLoop_eq (buffer search : Ptr) (m : Int) :
    ∀ (w p : List Nat) (i : Nat) (d : Int), w.length = p.length → d < m →
      (∀ j, j < w.length → buffer (i + j) = w[j]?) →
      (∀ j, j < p.length → search (i + j) = p[j]?) →
      looseCompareLoop buffer search m w.length i d
        = Outcome.ret (min (d + (mismatches w p : Int)) m) := by
  intro w
  induction w with
  | nil =>
    intro p i d hl hd _ _
    cases p with
    | nil => simp [looseCompareLoop, mismatches, min_eq_left (le_of_lt hd)]
    | cons b bs => simp at hl
  | cons a as ih =>
    intro p i d hl hd hb hs
    cases p with
    | nil => simp at hl
    | cons b bs =>
      have hl1 : as.length = bs.length := by simpa using hl
      have hb0 : buffer i = some a := by simpa using hb 0 (by simp)
      have hs0 : search i = some b := by simpa using hs 0 (by simp)
      have hb1 : ∀ j, j < as.length → buffer (i + 1 + j) = as[j]? := by
        intro j hj
        have := hb (j + 1) (by simpa using hj)
        simpa [Nat.add_assoc, Nat.add_comm 1 j] using this
      have hs1 : ∀ j, j < bs.length → search (i + 1 + j) = bs[j]? := by
        intro j hj
        have := hs (j + 1) (by simpa using hj)
        simpa [Nat.add_assoc, Nat.add_comm 1 j] using this
      have hnn : (0 : Int) ≤ (mismatches as bs : Int) := Int.ofNat_nonneg _
      simp only [List.length_cons, looseCompareLoop, hb0, hs0]
      by_cases hab : a = b
      · simp only [hab, ne_eq, not_true_eq_false, if_false]
        rw [ih bs (i + 1) d hl1 hd hb1 hs1]
        simp [mismatches]
      · simp only [ne_eq, hab, not_false_eq_true, if_true]
        by_cases hm : d + 1 ≥ m
        · simp only [hm, if_true, mismatches, ne_eq, hab, not_false_eq_true]
          congr 1
          rw [min_eq_right]
          · omega
          · push_cast; omega
        · simp only [hm, if_false]
          rw [ih bs (i + 1) (d + 1) hl1 (by omega) hb1 hs1]
          simp only [mismatches, ne_eq, hab, not_false_eq_true, if_true]
          congr 2
          push_cast; omega

theorem looseCompareLoop_reads (buffer search : Ptr) (m x : Int) (hx : x < m) :
    ∀ (n i : Nat) (d : Int), looseCompareLoop buffer search m n i d = Outcome.ret x →
      ∀ j, j < n → buffer (i + j) ≠ none := by
  intro n
  induction n with
  | zero => intro i d _ j hj; omega
  | succ n ih =>
    intro i d h j hj
    cases hb : buffer i with
    | none => simp [looseCompareLoop, hb] at h
    | some b =>
      cases hs : search i with
      | none => simp [looseCompareLoop, hb, hs] at h
      | some c =>
        have hrec : ∃ d1, looseCompareLoop buffer search m n (i + 1) d1 = Outcome.ret x := by
          simp only [looseCompareLoop, hb, hs] at h
          by_cases hbc : b = c
          · simp only [hbc, ne_eq, not_true_eq_false, if_false] at h
            exact ⟨d, h⟩
          · simp only [ne_eq, hbc, not_false_eq_true, if_true] at h
            by_cases hm : d + 1 ≥ m
            · simp only [hm, if_true, Outcome.ret.injEq] at h
              omega
            · simp only [hm, if_false] at h
              exact ⟨d + 1, h⟩
        obtain ⟨d1, h1⟩ := hrec
        cases j with
        | zero => simp [hb]
        | succ j =>
          have := ih (i + 1) d1 h1 j (by omega)
          simpa [Nat.add_assoc, Nat.add_comm 1 j] using this

theorem window_length (bytes : List Nat) (o : Nat) (h : o + 30 ≤ bytes.length) :
    (window bytes o).length = 30 := by
  simp [window]; omega

theorem window_read (bytes : List Nat) (o j : Nat) (hj : j < 30) :
    ptrAt (ptrOf bytes) o (0 + j) = (window bytes o)[j]? := by
  simp [ptrAt, ptrOf, window, List.getElem?_take, hj]

theorem code_length : code.length = 30 := rfl

/-- On a window that lies inside the buffer the matcher returns the number of
differing positions, capped at the tolerance. -/
theorem looseCompare_window (bytes : List Nat) (o : Nat) (m : Int) (hm : 0 < m)
    (h : o + 30 ≤ bytes.length) :
    looseCompare (ptrAt (ptrOf bytes) o) (ptrOf code) 30 m
      = Outcome.ret (min (mismatches (window bytes o) code : Int) m) := by
  have hl := window_length bytes o h
  have key := looseCompareLoop_eq (ptrAt (ptrOf bytes) o) (ptrOf code) m
    (window bytes o) code 0 0 (by rw [hl, code_length]) hm
    (fun j hj => window_read bytes o j (by omega))
    (fun j _ => by simp [ptrOf])
  rw [hl] at key
  simp only [looseCompare, not_le.mpr hm, if_false]
  simpa using key

/-- A window that the matcher lets pass lies inside the buffer. -/
theorem looseCompare_inside (bytes : List Nat) (o : Nat) (m x : Int) (hx : x < m)
    (h : looseCompare (ptrAt (ptrOf bytes) o) (ptrOf code) 30 m = Outcome.ret x) :
    o + 30 ≤ bytes.length := by
  by_cases hm : m ≤ 0
  · simp only [looseCompare, hm, if_true, Outcome.ret.injEq] at h
    omega
  · simp only [looseCompare, hm, if_false] at h
    have := looseCompareLoop_reads _ _ m x hx 30 0 0 (by simpa using h) 29 (by omega)
    simp only [ptrAt, ptrOf, ne_eq, List.getElem?_eq_none_iff, not_le] at this
    omega

/-- A read outside the object that comes before the tolerance can be reached
makes the matcher undefined. -/
theorem looseCompareLoop_undefined (buffer search : Ptr) (m : Int) :
    ∀ (t n i : Nat) (d : Int), t < n → buffer (i + t) = none → d + (t : Int) < m →
      looseCompareLoop buffer search m n i d = Outcome.undefined := by
  intro t
  induction t with
  | zero =>
    intro n i d hn hb _
    obtain ⟨n, rfl⟩ : ∃ n', n = n' + 1 := ⟨n - 1, by omega⟩
    simp only [Nat.add_zero] at hb
    simp [looseCompareLoop, hb]
  | succ t ih =>
    intro n i d hn hb hd
    obtain ⟨n, rfl⟩ : ∃ n', n = n' + 1 := ⟨n - 1, by omega⟩
    have hb1 : buffer (i + 1 + t) = none := by
      have e : i + 1 + t = i + (t + 1) := by ring
      rw [e]; exact hb
    push_cast at hd
    cases hbi : buffer i with
    | none => simp [looseCompareLoop, hbi]
    | some b =>
      cases hsi : search i with
      | none => simp [looseCompareLoop, hbi, hsi]
      | some c =>
        simp only [looseCompareLoop, hbi, hsi]
        have hge : ¬ d + 1 ≥ m := by omega
        by_cases hbc : b = c
        · simp only [hbc, ne_eq, not_true_eq_false, if_false]
          exact ih n (i + 1) d (by omega) hb1 (by omega)
        · simp only [ne_eq, hbc, not_false_eq_true, if_true, hge, if_false]
          exact ih n (i + 1) (d + 1) (by omega) hb1 (by omega)

theorem mismatches_self (w : List Nat) : mismatches w w = 0 := by
  induction w with
  | nil => rfl
  | cons a as ih => simp [mismatches, ih]

/-- For a positive tolerance and buffers that hold at least `count` bytes the
matcher returns the number of differing positions among the first `count`,
capped at the tolerance. -/
theorem looseCompare_take (w p : List Nat) (count m : Int) (hm : 0 < m)
    (hw : count.toNat ≤ w.length) (hp : count.toNat ≤ p.length) :
    looseCompare (ptrOf w) (ptrOf p) count m
      = Outcome.ret
          (min (mismatches (w.take count.toNat) (p.take count.toNat) : Int) m) := by
  have hlw : (w.take count.toNat).length = count.toNat := by
    rw [List.length_take]; omega
  have hlp : (p.take count.toNat).length = count.toNat := by
    rw [List.length_take]; omega
  have key := looseCompareLoop_eq (ptrOf w) (ptrOf p) m (w.take count.toNat)
    (p.take count.toNat) 0 0 (by rw [hlw, hlp]) hm
    (fun j hj => by
      rw [hlw] at hj
      simp [ptrOf, List.getElem?_take, hj])
    (fun j hj => by
      rw [hlp] at hj
      simp [ptrOf, List.getElem?_take, hj])
  rw [hlw] at key
  simp only [looseCompare, not_le.mpr hm, if_false]
  simpa using key

theorem ptrBeyond_inside (bytes : List Nat) (beyond : Nat → Option Nat) (i : Nat)
    (h : i < bytes.length) : ptrBeyond bytes beyond i = bytes[i]? := by
  simp [ptrBeyond, List.getElem?_eq_getElem h]

/-- On a window inside the buffer the matcher sees the bytes of the buffer,
whatever the pointer yields behind the buffer. -/
theorem looseCompare_window_agree (bytes : List Nat) (p : Ptr)
    (hp : ∀ i, i < bytes.length → p i = bytes[i]?) (o : Nat) (m : Int) (hm : 0 < m)
    (h : o + 30 ≤ bytes.length) :
    looseCompare (ptrAt p o) (ptrOf code) 30 m
      = Outcome.ret (min (mismatches (window bytes o) code : Int) m) := by
  have hl := window_length bytes o h
  have key := looseCompareLoop_eq (ptrAt p o) (ptrOf code) m
    (window bytes o) code 0 0 (by rw [hl, code_length]) hm
    (fun j hj => by
      rw [← window_read bytes o j (by omega)]
      simp only [ptrAt, ptrOf, Nat.zero_add]
      exact hp (o + j) (by omega))
    (fun j _ => by simp [ptrOf])
  rw [hl] at key
  simp only [looseCompare, not_le.mpr hm, if_false]
  simpa using key

theorem mismatches_nil_right (a : List Nat) : mismatches a [] = 0 := by
  cases a <;> rfl

theorem mismatches_nil_left (b : List Nat) : mismatches [] b = 0 := rfl

theorem mismatches_append :
    ∀ (x x' y y' : List Nat), x.length = x'.length →
      mismatches (x ++ y) (x' ++ y') = mismatches x x' + mismatches y y' := by
  intro x
  induction x with
  | nil =>
    intro x' y y' h
    cases x' with
    | nil => simp [mismatches]
    | cons b bs => simp at h
  | cons a as ih =>
    intro x' y y' h
    cases x' with
    | nil => simp at h
    | cons b bs =>
      have hl : as.length = bs.length := by simpa using h
      have e : mismatches (a :: as ++ y) (b :: bs ++ y')
          = (if a ≠ b then 1 else 0) + mismatches (as ++ y) (bs ++ y') := rfl
      have e2 : mismatches (a :: as) (b :: bs)
          = (if a ≠ b then 1 else 0) + mismatches as bs := rfl
      rw [e, e2, ih bs y y' hl]
      omega

theorem mismatches_drop_le :
    ∀ (n : Nat) (a b : List Nat), mismatches (a.drop n) (b.drop n) ≤ mismatches a b := by
  intro n
  induction n with
  | zero => intro a b; simp
  | succ n ih =>
    intro a b
    cases a with
    | nil => simp [mismatches_nil_left]
    | cons x xs =>
      cases b with
      | nil => simp [mismatches_nil_right]
      | cons y ys =>
        simp only [List.drop_succ_cons, mismatches]
        have := ih xs ys
        omega

theorem mismatches_take_le :
    ∀ (n : Nat) (a b : List Nat), mismatches (a.take n) (b.take n) ≤ mismatches a b := by
  intro n
  induction n with
  | zero => intro a b; simp [mismatches_nil_left]
  | succ n ih =>
    intro a b
    cases a with
    | nil => simp [mismatches_nil_left]
    | cons x xs =>
      cases b with
      | nil => simp [mismatches_nil_right]
      | cons y ys =>
        simp only [List.take_succ_cons, mismatches]
        have := ih xs ys
        omega

theorem mismatches_triangle :
    ∀ (a b c : List Nat), a.length = b.length → b.length = c.length →
      mismatches a c ≤ mismatches a b + mismatches b c := by
  intro a
  induction a with
  | nil => intro b c _ _; simp [mismatches_nil_left]
  | cons x xs ih =>
    intro b c hab hbc
    cases b with
    | nil => simp at hab
    | cons y ys =>
      cases c with
      | nil => simp at hbc
      | cons z zs =>
        have h1 : xs.length = ys.length := by simpa using hab
        have h2 : ys.length = zs.length := by simpa using hbc
        have := ih ys zs h1 h2
        simp only [mismatches]
        by_cases hxy : x = y
        · subst hxy
          simp only [ne_eq, not_true_eq_false, if_false]
          omega
        · by_cases hxz : x = z
          · simp only [ne_eq, hxy, hxz, not_true_eq_false, not_false_eq_true, if_true, if_false]
            omega
          · simp only [ne_eq, hxy, hxz, not_false_eq_true, if_true]
            omega

/-- A window of two buffers of the same shape differs in no more positions than
the buffers do. -/
theorem mismatches_window_le (a b : List Nat) (o : Nat) :
    mismatches (window a o) (window b o) ≤ mismatches a b :=
  le_trans (mismatches_take_le 30 _ _) (mismatches_drop_le o a b)

theorem mismatches_comm : ∀ (a b : List Nat), mismatches a b = mismatches b a := by
  intro a
  induction a with
  | nil => intro b; rw [mismatches_nil_left, mismatches_nil_right]
  | cons x xs ih =>
    intro b
    cases b with
    | nil => rfl
    | cons y ys =>
      simp only [mismatches, ih ys, ne_eq, eq_comm]

/-! ## The matcher and the count of differing positions -/

/-- The count of differing positions of two pointers that yield the bytes of two
lists is the number of positions at which the lists differ. -/
theorem countDiffering_eq_mismatches (buffer search : Ptr) :
    ∀ (w q : List Nat) (i : Nat), w.length = q.length →
      (∀ j, j < w.length → buffer (i + j) = w[j]?) →
      (∀ j, j < q.length → search (i + j) = q[j]?) →
      countDiffering buffer search w.length i = mismatches w q := by
  intro w
  induction w with
  | nil =>
    intro q i hl _ _
    cases q with
    | nil => rfl
    | cons b bs => simp at hl
  | cons a as ih =>
    intro q i hl hb hs
    cases q with
    | nil => simp at hl
    | cons b bs =>
      have hl1 : as.length = bs.length := by simpa using hl
      have hb0 : buffer i = some a := by simpa using hb 0 (by simp)
      have hs0 : search i = some b := by simpa using hs 0 (by simp)
      have hb1 : ∀ j, j < as.length → buffer (i + 1 + j) = as[j]? := by
        intro j hj
        have := hb (j + 1) (by simpa using hj)
        simpa [Nat.add_assoc, Nat.add_comm 1 j] using this
      have hs1 : ∀ j, j < bs.length → search (i + 1 + j) = bs[j]? := by
        intro j hj
        have := hs (j + 1) (by simpa using hj)
        simpa [Nat.add_assoc, Nat.add_comm 1 j] using this
      simp only [List.length_cons, countDiffering, hb0, hs0, mismatches,
        ih bs (i + 1) hl1 hb1 hs1]

/-- Inside the buffer the 30 bytes a pointer yields are the window of the
buffer: they are readable and differ from `code` where the window does. -/
theorem differing_inside (bytes : List Nat) (p : Ptr)
    (hp : ∀ i, i < bytes.length → p i = bytes[i]?) (o : Nat)
    (h : o + 30 ≤ bytes.length) :
    readable p o ∧ differing p o = mismatches (window bytes o) code := by
  constructor
  · intro i hi
    rw [hp (o + i) (by omega)]
    simp only [ne_eq, List.getElem?_eq_none_iff, not_le]
    omega
  · have hl := window_length bytes o h
    have key := countDiffering_eq_mismatches (ptrAt p o) (ptrOf code) (window bytes o) code 0
      (by rw [hl, code_length])
      (fun j hj => by
        rw [← window_read bytes o j (by omega)]
        simp only [ptrAt, ptrOf, Nat.zero_add]
        exact hp (o + j) (by omega))
      (fun j _ => by simp [ptrOf])
    rw [hl] at key
    exact key

/-! ## The scanner -/

theorem wrapInt_of_le (x : Int) (h0 : -2147483648 ≤ x) (h1 : x ≤ 2147483647) :
    wrapInt x = x := by
  unfold wrapInt; omega

theorem wrapInt_neg (x : Int) (h0 : 2147483647 < x) (h1 : x < 4294967296) :
    wrapInt x < 0 := by
  unfold wrapInt; omega

theorem looseCompareLoop_ne_outOfFuel (buffer search : Ptr) (m : Int) :
    ∀ (n i : Nat) (d : Int), looseCompareLoop buffer search m n i d ≠ Outcome.outOfFuel := by
  intro n
  induction n with
  | zero => intro i d; simp [looseCompareLoop]
  | succ n ih =>
    intro i d
    simp only [looseCompareLoop]
    split
    · split
      · split
        · simp
        · exact ih _ _
      · exact ih _ _
    · simp

theorem looseCompare_ne_outOfFuel (buffer search : Ptr) (count m : Int) :
    looseCompare buffer search count m ≠ Outcome.outOfFuel := by
  simp only [looseCompare]
  split
  · simp
  · exact looseCompareLoop_ne_outOfFuel _ _ _ _ _ _

/-- From a negative `offset` the loop of `findSelectSong` leaves at once. -/
theorem scanLoop_wrapped (p : Ptr) (length : Nat) (m : Int) (fuel : Nat) (x : Int)
    (hx : x < 0) :
    scanLoop p length m fuel x
      = if fuel = 0 then Outcome.outOfFuel else Outcome.ret (-1) := by
  cases fuel with
  | zero => rfl
  | succ fuel =>
    have hs : ¬ sizeLt x length := fun h => absurd h.1 (not_le.mpr hx)
    simp only [scanLoop]
    rw [if_neg hs]
    simp

/-- One round of the loop of `findSelectSong` from an offset that an `int`
holds: the next offset is `offset + 4`, or the increment wraps to a negative
`int` and the loop ends with -1. -/
theorem scanLoop_step (p : Ptr) (length : Nat) (m : Int) (fuel offset : Nat)
    (hmax : offset ≤ 2147483647) :
    scanLoop p length m (fuel + 1) (offset : Int) =
      if offset < length then
        match looseCompare (ptrAt p offset) (ptrOf code) 30 m with
        | Outcome.ret r =>
          if r < m then Outcome.ret (offset : Int)
          else if offset + 4 ≤ 2147483647 then
            scanLoop p length m fuel ((offset + 4 : Nat) : Int)
          else if fuel = 0 then Outcome.outOfFuel else Outcome.ret (-1)
        | Outcome.undefined => Outcome.undefined
        | Outcome.outOfFuel => Outcome.outOfFuel
      else Outcome.ret (-1) := by
  have hto : ((offset : Int)).toNat = offset := Int.toNat_ofNat offset
  by_cases hlt : offset < length
  · have hs : sizeLt (offset : Int) length := ⟨Int.ofNat_nonneg _, by exact_mod_cast hlt⟩
    rw [if_pos hlt]
    simp only [scanLoop]
    rw [if_pos hs, hto]
    cases hc : looseCompare (ptrAt p offset) (ptrOf code) 30 m with
    | ret r =>
      simp only []
      by_cases hr : r < m
      · simp only [hr, if_true]
      · simp only [hr, if_false]
        by_cases h4 : offset + 4 ≤ 2147483647
        · simp only [h4, if_true]
          rw [wrapInt_of_le ((offset : Int) + 4) (by omega) (by omega)]
          push_cast
          rfl
        · simp only [h4, if_false]
          exact scanLoop_wrapped p length m fuel _
            (wrapInt_neg ((offset : Int) + 4) (by omega) (by omega))
    | undefined => rfl
    | outOfFuel => rfl
  · have hs : ¬ sizeLt (offset : Int) length := fun h => hlt (by exact_mod_cast h.2)
    rw [if_neg hlt]
    simp only [scanLoop]
    rw [if_neg hs]

/-- The loop of `findSelectSong` ends before its fuel does. -/
theorem scanLoop_fuel (p : Ptr) (length : Nat) (m : Int) :
    ∀ (fuel offset : Nat), offset ≤ 2147483647 → 0 < fuel →
      length + 4 ≤ offset + 4 * fuel →
      scanLoop p length m fuel (offset : Int) ≠ Outcome.outOfFuel := by
  intro fuel
  induction fuel with
  | zero => intro offset _ h0 _; omega
  | succ fuel ih =>
    intro offset hmax _ h
    rw [scanLoop_step p length m fuel offset hmax]
    by_cases hlt : offset < length
    · simp only [hlt, if_true]
      cases hc : looseCompare (ptrAt p offset) (ptrOf code) 30 m with
      | ret r =>
        simp only []
        by_cases hr : r < m
        · simp [hr]
        · simp only [hr, if_false]
          by_cases h4 : offset + 4 ≤ 2147483647
          · simp only [h4, if_true]
            exact ih (offset + 4) h4 (by omega) (by omega)
          · have hf : fuel ≠ 0 := by omega
            simp [h4, hf]
      | undefined => simp
      | outOfFuel => exact absurd hc (looseCompare_ne_outOfFuel _ _ _ _)
    · simp [hlt]

/-- The scan returns: `length + 1` rounds of fuel are enough. -/
theorem findSelectSong_fuel (buffer : Ptr) (length : Nat) :
    findSelectSong buffer length ≠ Outcome.outOfFuel :=
  scanLoop_fuel buffer length 8 (length + 1) 0 (by omega) (by omega) (by omega)

/-- What the loop returns: -1, or an offset of its stride that an `int` holds
and that is below `length`, whose window the matcher lets pass after it has
rejected the windows at all offsets of the stride before it. -/
theorem scanLoop_ret_general (p : Ptr) (length : Nat) (m r : Int) :
    ∀ (fuel offset : Nat), offset ≤ 2147483647 →
      scanLoop p length m fuel (offset : Int) = Outcome.ret r →
      r = -1 ∨ ∃ k : Nat, r = ((offset + 4 * k : Nat) : Int) ∧ offset + 4 * k < length ∧
        offset + 4 * k ≤ 2147483647 ∧
        (∃ x, looseCompare (ptrAt p (offset + 4 * k)) (ptrOf code) 30 m = Outcome.ret x ∧
          x < m) ∧
        ∀ j, j < k → ∃ x,
          looseCompare (ptrAt p (offset + 4 * j)) (ptrOf code) 30 m = Outcome.ret x ∧
            ¬ x < m := by
  intro fuel
  induction fuel with
  | zero => intro offset _ h; simp [scanLoop] at h
  | succ fuel ih =>
    intro offset hmax h
    rw [scanLoop_step p length m fuel offset hmax] at h
    by_cases hlt : offset < length
    · simp only [hlt, if_true] at h
      cases hc : looseCompare (ptrAt p offset) (ptrOf code) 30 m with
      | ret x =>
        simp only [hc] at h
        by_cases hx : x < m
        · simp only [hx, if_true, Outcome.ret.injEq] at h
          exact Or.inr ⟨0, by simpa using h.symm, by simpa using hlt, by simpa using hmax,
            ⟨x, by simpa using hc, hx⟩, fun j hj => by omega⟩
        · simp only [hx, if_false] at h
          by_cases h4 : offset + 4 ≤ 2147483647
          · simp only [h4, if_true] at h
            rcases ih (offset + 4) h4 h with h1 | ⟨k, hk1, hk2, hk3, hk4, hk5⟩
            · exact Or.inl h1
            · have e : offset + 4 + 4 * k = offset + 4 * (k + 1) := by ring
              refine Or.inr ⟨k + 1, by rw [hk1, e], by omega, by omega, ?_, ?_⟩
              · rw [← e]; exact hk4
              · intro j hj
                cases j with
                | zero => exact ⟨x, by simpa using hc, hx⟩
                | succ j =>
                  have := hk5 j (by omega)
                  have e2 : offset + 4 + 4 * j = offset + 4 * (j + 1) := by ring
                  rwa [e2] at this
          · simp only [h4, if_false] at h
            by_cases hf : fuel = 0
            · simp [hf] at h
            · simp only [hf, if_false, Outcome.ret.injEq] at h
              exact Or.inl h.symm
      | undefined => simp [hc] at h
      | outOfFuel => simp [hc] at h
    · simp only [hlt, if_false, Outcome.ret.injEq] at h
      exact Or.inl h.symm

/-- The loop reaches and returns the first offset of its stride whose window
the matcher lets pass, when an `int` holds that offset. -/
theorem scanLoop_found_general (p : Ptr) (length : Nat) (m : Int) :
    ∀ (k fuel offset : Nat), k < fuel → offset + 4 * k ≤ 2147483647 →
      offset + 4 * k < length →
      (∀ j, j < k → ∃ x,
        looseCompare (ptrAt p (offset + 4 * j)) (ptrOf code) 30 m = Outcome.ret x ∧ ¬ x < m) →
      (∃ x, looseCompare (ptrAt p (offset + 4 * k)) (ptrOf code) 30 m = Outcome.ret x ∧
        x < m) →
      scanLoop p length m fuel (offset : Int) = Outcome.ret ((offset + 4 * k : Nat) : Int) := by
  intro k
  induction k with
  | zero =>
    intro fuel offset hf hmax hlt _ hk
    obtain ⟨f, rfl⟩ : ∃ f, fuel = f + 1 := ⟨fuel - 1, by omega⟩
    obtain ⟨x, hx1, hx2⟩ := hk
    simp only [Nat.mul_zero, Nat.add_zero] at hx1 hlt hmax ⊢
    rw [scanLoop_step p length m f offset hmax]
    simp only [hlt, if_true, hx1, hx2]
  | succ k ih =>
    intro fuel offset hf hmax hlt hbefore hk
    obtain ⟨f, rfl⟩ : ∃ f, fuel = f + 1 := ⟨fuel - 1, by omega⟩
    obtain ⟨x, hx1, hx2⟩ := hbefore 0 (by omega)
    simp only [Nat.mul_zero, Nat.add_zero] at hx1
    have e : offset + 4 * (k + 1) = offset + 4 + 4 * k := by ring
    rw [scanLoop_step p length m f offset (by omega)]
    have h4 : offset + 4 ≤ 2147483647 := by omega
    simp only [show offset < length by omega, if_true, hx1, hx2, if_false, h4]
    rw [e] at hmax hlt hk ⊢
    exact ih f (offset + 4) (by omega) hmax hlt
      (fun j hj => by
        have := hbefore (j + 1) (by omega)
        have e2 : offset + 4 * (j + 1) = offset + 4 + 4 * j := by ring
        rwa [e2] at this)
      hk

/-- When the matcher rejects the window at every offset of the stride that is
below `length` and that an `int` holds, the loop returns -1. -/
theorem scanLoop_none_general (p : Ptr) (length : Nat) (m : Int) :
    ∀ (fuel offset : Nat), offset ≤ 2147483647 → 0 < fuel →
      length + 4 ≤ offset + 4 * fuel →
      (∀ j, offset + 4 * j < length → offset + 4 * j ≤ 2147483647 → ∃ x,
        looseCompare (ptrAt p (offset + 4 * j)) (ptrOf code) 30 m = Outcome.ret x ∧ ¬ x < m) →
      scanLoop p length m fuel (offset : Int) = Outcome.ret (-1) := by
  intro fuel
  induction fuel with
  | zero => intro offset _ h0 _ _; omega
  | succ fuel ih =>
    intro offset hmax _ h hall
    rw [scanLoop_step p length m fuel offset hmax]
    by_cases hlt : offset < length
    · obtain ⟨x, hx1, hx2⟩ := hall 0 (by simpa using hlt) (by simpa using hmax)
      simp only [Nat.mul_zero, Nat.add_zero] at hx1
      simp only [hlt, if_true, hx1, hx2, if_false]
      by_cases h4 : offset + 4 ≤ 2147483647
      · simp only [h4, if_true]
        exact ih (offset + 4) h4 (by omega) (by omega) (fun j hj1 hj2 => by
          have e2 : offset + 4 + 4 * j = offset + 4 * (j + 1) := by ring
          rw [e2] at hj1 hj2 ⊢
          exact hall (j + 1) hj1 hj2)
      · have hf : fuel ≠ 0 := by omega
        simp [h4, hf]
    · simp [hlt]

theorem min_cast_lt_eight (n : Nat) : min (n : Int) 8 < 8 ↔ n < 8 := by
  rw [min_lt_iff]
  constructor
  · rintro (h | h)
    · exact_mod_cast h
    · omega
  · intro h
    exact Or.inl (by exact_mod_cast h)

theorem ptrOf_agree (bytes : List Nat) :
    ∀ i, i < bytes.length → ptrOf bytes i = bytes[i]? := fun _ _ => rfl

/-- Whatever the pointer yields behind the buffer, the loop reaches and returns
the first offset of its stride whose window is inside the buffer and within the
tolerance, when an `int` holds that offset. -/
theorem scanLoop_found (bytes : List Nat) (p : Ptr)
    (hp : ∀ i, i < bytes.length → p i = bytes[i]?) :
    ∀ (k fuel offset : Nat), k < fuel → offset + 4 * k ≤ 2147483647 →
      offset + 4 * k + 30 ≤ bytes.length →
      (∀ j, j < k → 8 ≤ mismatches (window bytes (offset + 4 * j)) code) →
      mismatches (window bytes (offset + 4 * k)) code < 8 →
      scanLoop p bytes.length 8 fuel (offset : Int)
        = Outcome.ret ((offset + 4 * k : Nat) : Int) := by
  intro k fuel offset hf hmax hin hbefore hk
  refine scanLoop_found_general p bytes.length 8 k fuel offset hf hmax (by omega) ?_ ?_
  · intro j hj
    refine ⟨_, looseCompare_window_agree bytes p hp (offset + 4 * j) 8 (by norm_num)
      (by omega), ?_⟩
    rw [min_cast_lt_eight]
    have := hbefore j hj
    omega
  · exact ⟨_, looseCompare_window_agree bytes p hp (offset + 4 * k) 8 (by norm_num) hin,
      (min_cast_lt_eight _).mpr hk⟩

/-- On a buffer whose object ends with it, an offset that the loop returns is
the first of its stride whose window is within the tolerance, and that window
is inside the buffer. -/
theorem scanLoop_ret (bytes : List Nat) (r : Int) (hr : 0 ≤ r) :
    ∀ (fuel offset : Nat), offset ≤ 2147483647 →
      scanLoop (ptrOf bytes) bytes.length 8 fuel (offset : Int) = Outcome.ret r →
      ∃ k : Nat, r = ((offset + 4 * k : Nat) : Int) ∧ offset + 4 * k + 30 ≤ bytes.length ∧
        mismatches (window bytes (offset + 4 * k)) code < 8 ∧
        ∀ j, j < k → 8 ≤ mismatches (window bytes (offset + 4 * j)) code := by
  intro fuel offset hmax h
  rcases scanLoop_ret_general (ptrOf bytes) bytes.length 8 r fuel offset hmax h with
    h1 | ⟨k, hk1, _, _, ⟨x, hx1, hx2⟩, hk5⟩
  · omega
  · have hin := looseCompare_inside bytes (offset + 4 * k) 8 x hx2 hx1
    rw [looseCompare_window bytes _ 8 (by norm_num) hin, Outcome.ret.injEq] at hx1
    refine ⟨k, hk1, hin, (min_cast_lt_eight _).mp (hx1 ▸ hx2), ?_⟩
    intro j hj
    obtain ⟨y, hy1, hy2⟩ := hk5 j hj
    rw [looseCompare_window bytes _ 8 (by norm_num) (by omega), Outcome.ret.injEq] at hy1
    rw [← hy1, min_cast_lt_eight] at hy2
    omega

/-- On a buffer of at most 2^31 bytes whose object ends with it, the loop of
`findSelectSong` never gets to `return -1` from an offset below `length`: its
last window has at most four bytes inside the buffer, fewer than the tolerance,
so the matcher reads past the end. -/
theorem scanLoop_never_not_found (bytes : List Nat) (hlen : bytes.length ≤ 2147483648) :
    ∀ (fuel offset : Nat), offset < bytes.length →
      scanLoop (ptrOf bytes) bytes.length 8 fuel (offset : Int) ≠ Outcome.ret (-1) := by
  intro fuel
  induction fuel with
  | zero => intro offset _; simp [scanLoop]
  | succ fuel ih =>
    intro offset hlt
    rw [scanLoop_step (ptrOf bytes) bytes.length 8 fuel offset (by omega)]
    simp only [hlt, if_true]
    cases hc : looseCompare (ptrAt (ptrOf bytes) offset) (ptrOf code) 30 8 with
    | ret x =>
      simp only []
      by_cases hx : x < 8
      · simp only [hx, if_true, ne_eq, Outcome.ret.injEq]
        omega
      · simp only [hx, if_false]
        by_cases hnext : offset + 4 < bytes.length
        · have h4 : offset + 4 ≤ 2147483647 := by omega
          simp only [h4, if_true]
          exact ih (offset + 4) hnext
        · exfalso
          have hu := looseCompareLoop_undefined (ptrAt (ptrOf bytes) offset) (ptrOf code) 8
            (bytes.length - offset) 30 0 0 (by omega)
            (by simp only [ptrAt, ptrOf, Nat.zero_add, List.getElem?_eq_none_iff]; omega)
            (by omega)
          have hc2 : looseCompareLoop (ptrAt (ptrOf bytes) offset) (ptrOf code) 8 30 0 0
              = Outcome.ret x := by
            simpa [looseCompare] using hc
          rw [hu] at hc2
          exact Outcome.noConfusion hc2
    | undefined => simp
    | outOfFuel => simp

/-- For every buffer of 1 to 2^31 bytes, `findSelectSong` does not return -1
without a read past the end of the buffer. -/
theorem findSelectSong_never_not_found (bytes : List Nat) (h : bytes ≠ [])
    (hlen : bytes.length ≤ 2147483648) :
    findSelectSong (ptrOf bytes) bytes.length ≠ Outcome.ret (-1) :=
  scanLoop_never_not_found bytes hlen (bytes.length + 1) 0 (List.length_pos.mpr h)

/-- With a tolerance `m ≤ 0` the loop accepts no window and reads nothing: it
runs to its end and returns -1. -/
theorem scanLoop_nonpos (buffer : Ptr) (length : Nat) (m : Int) (hm : m ≤ 0) :
    ∀ (fuel offset : Nat), offset ≤ 2147483647 → 0 < fuel →
      length + 4 ≤ offset + 4 * fuel →
      scanLoop buffer length m fuel (offset : Int) = Outcome.ret (-1) := by
  intro fuel offset hmax hf h
  refine scanLoop_none_general buffer length m fuel offset hmax hf h ?_
  intro j _ _
  exact ⟨0, by simp [looseCompare, hm], by omega⟩

theorem findSongTable_eq_tablePointer (buffer : Ptr) (size : Nat) :
    findSongTable buffer size = tablePointer (findSelectSong buffer size) size := rfl

/-- The resolution step on an offset that the scan can return: `offset + 40`
when that is below `size` and an `int` holds it, and -1 otherwise. -/
theorem tablePointer_ret (o : Int) (size : Nat) (h0 : 0 ≤ o) (h1 : o ≤ 2147483647) :
    tablePointer (Outcome.ret o) size
      = if o + 40 < (size : Int) ∧ o + 40 ≤ 2147483647 then Outcome.ret (o + 40)
        else Outcome.ret (-1) := by
  have hne : o ≠ -1 := by omega
  simp only [tablePointer, hne, if_false]
  by_cases h40 : o + 40 ≤ 2147483647
  · rw [wrapInt_of_le (o + 40) (by omega) h40]
    by_cases hlt : o + 40 < (size : Int)
    · have hs : sizeLt (o + 40) size := ⟨by omega, hlt⟩
      rw [if_neg (not_not.mpr hs), if_pos ⟨hlt, h40⟩]
    · have hs : ¬ sizeLt (o + 40) size := fun h => hlt h.2
      rw [if_pos hs, if_neg (fun h => hlt h.1)]
  · have hneg := wrapInt_neg (o + 40) (by omega) (by omega)
    have hs : ¬ sizeLt (wrapInt (o + 40)) size := fun h => absurd h.1 (not_le.mpr hneg)
    rw [if_pos hs, if_neg (fun h => h40 h.2)]

theorem tablePointer_not_found (size : Nat) :
    tablePointer (Outcome.ret (-1)) size = Outcome.ret (-1) := by
  simp [tablePointer]

/-- What `findSelectSong` returns is -1 or an offset from 0 to the largest
`int`, a multiple of 4 below `length`. -/
theorem findSelectSong_range (p : Ptr) (length : Nat) (o : Int)
    (h : findSelectSong p length = Outcome.ret o) :
    o = -1 ∨ (0 ≤ o ∧ o ≤ 2147483647 ∧ o % 4 = 0 ∧ o < (length : Int)) := by
  rcases scanLoop_ret_general p length 8 o (length + 1) 0 (by omega) h with
    h1 | ⟨k, hk1, hk2, hk3, _, _⟩
  · exact Or.inl h1
  · right
    subst hk1
    refine ⟨Int.ofNat_nonneg _, by exact_mod_cast hk3, by omega, by exact_mod_cast hk2⟩

/-! ## The scan of the specification -/

/-- Whatever the pointer yields behind the buffer: when the first aligned
window within the tolerance inside the buffer lies at an offset that an `int`
does not hold, the increment wraps before the loop reaches it and the scan
returns -1. -/
theorem findSelectSong_match_past_int (bytes : List Nat) (p : Ptr)
    (hp : ∀ i, i < bytes.length → p i = bytes[i]?) (k : Nat)
    (hbig : 2147483647 < 4 * k) (hin : 4 * k + 30 ≤ bytes.length)
    (hbefore : ∀ j, j < k → 8 ≤ mismatches (window bytes (4 * j)) code) :
    findSelectSong p bytes.length = Outcome.ret (-1) := by
  refine scanLoop_none_general p bytes.length 8 (bytes.length + 1) 0 (by omega) (by omega)
    (by omega) ?_
  intro j _ hj2
  have hjk : j < k := by omega
  refine ⟨_, looseCompare_window_agree bytes p hp (0 + 4 * j) 8 (by norm_num) (by omega), ?_⟩
  rw [min_cast_lt_eight]
  have := hbefore j hjk
  simp only [Nat.zero_add]
  omega

/-- On a buffer of 1 to 2^31 bytes that has no aligned window within the
tolerance inside it, `findSelectSong` runs into a read past the end. -/
theorem findSelectSong_undefined_of_no_match (bytes : List Nat) (hne : bytes ≠ [])
    (hlen : bytes.length ≤ 2147483648)
    (hno : ∀ o, o % 4 = 0 → o + 30 ≤ bytes.length → 8 ≤ mismatches (window bytes o) code) :
    findSelectSong (ptrOf bytes) bytes.length = Outcome.undefined := by
  cases h : findSelectSong (ptrOf bytes) bytes.length with
  | ret r =>
    exfalso
    rcases findSelectSong_range (ptrOf bytes) bytes.length r h with h1 | ⟨h0, _, _, _⟩
    · exact findSelectSong_never_not_found bytes hne hlen (h1 ▸ h)
    · obtain ⟨k, _, hk2, hk3, _⟩ :=
        scanLoop_ret bytes r h0 (bytes.length + 1) 0 (by omega) h
      have := hno (0 + 4 * k) (by omega) hk2
      omega
  | undefined => rfl
  | outOfFuel => exact absurd h (findSelectSong_fuel _ _)

/-- On every buffer of 1 to 29 bytes the final result is undefined: the scan
reads past the end of the buffer. -/
theorem findSongTable_short_undefined (bytes : List Nat) (h0 : 0 < bytes.length)
    (h30 : bytes.length < 30) :
    findSongTable (ptrOf bytes) bytes.length = Outcome.undefined := by
  rw [findSongTable_eq_tablePointer,
    findSelectSong_undefined_of_no_match bytes (List.length_pos.mp h0) (by omega)
      (fun o _ hin => by omega)]
  rfl

/-! ## The buffer of 1000 bytes with 30 bytes at offset 100 -/

theorem embedAt100_length (w : List Nat) (hw : w.length = 30) :
    (embedAt100 w).length = 1000 := by
  simp only [embedAt100, List.length_append, List.length_replicate, hw]

theorem window_embedAt100_before (w : List Nat) (o : Nat) (h : o + 30 ≤ 100) :
    window (embedAt100 w) o = List.replicate 30 0 := by
  unfold window embedAt100
  rw [List.append_assoc,
    List.drop_append_of_le_length (by rw [List.length_replicate]; omega),
    List.take_append_of_le_length (by rw [List.length_drop, List.length_replicate]; omega),
    List.drop_replicate, List.take_replicate]
  have e : min 30 (100 - o) = 30 := by omega
  rw [e]

theorem window_embedAt100_after (w : List Nat) (hw : w.length = 30) (o : Nat)
    (h1 : 130 ≤ o) (h2 : o + 30 ≤ 1000) :
    window (embedAt100 w) o = List.replicate 30 0 := by
  unfold window embedAt100
  have hl : (List.replicate 100 0 ++ w).length = 130 := by
    rw [List.length_append, List.length_replicate, hw]
  rw [List.drop_append_eq_append_drop, List.drop_eq_nil_of_le (by rw [hl]; exact h1), hl,
    List.nil_append, List.drop_replicate, List.take_replicate]
  have e : min 30 (870 - (o - 130)) = 30 := by omega
  rw [e]

theorem window_embedAt100_at (w : List Nat) (hw : w.length = 30) :
    window (embedAt100 w) 100 = w := by
  unfold window embedAt100
  rw [List.append_assoc, List.drop_left' (List.length_replicate 100 0), List.take_left' hw]

theorem mismatches_zero_window : mismatches (List.replicate 30 0) code = 25 := by decide

set_option maxRecDepth 200000 in
/-- The aligned windows of the exact buffer that overlap the pattern from
before offset 100 differ from `code` in 25 positions or more. -/
theorem embedAt100_code_overlap_before :
    ∀ k, k < 25 → 18 ≤ k → 25 ≤ mismatches (window (embedAt100 code) (4 * k)) code := by
  decide

set_option maxRecDepth 200000 in
/-- The aligned windows of the exact buffer that overlap the pattern from
behind offset 100 differ from `code` in 25 positions or more. -/
theorem embedAt100_code_overlap_after :
    ∀ k, k < 33 → 25 < k → 25 ≤ mismatches (window (embedAt100 code) (4 * k)) code := by
  decide

/-- Every aligned window of the exact buffer but the one at 100 differs from
`code` in 25 positions or more. -/
theorem embedAt100_code_windows (o : Nat) (h4 : o % 4 = 0) (hne : o ≠ 100)
    (hin : o + 30 ≤ 1000) : 25 ≤ mismatches (window (embedAt100 code) o) code := by
  by_cases h1 : o + 30 ≤ 100
  · rw [window_embedAt100_before code o h1, mismatches_zero_window]
  · by_cases h2 : 130 ≤ o
    · rw [window_embedAt100_after code code_length o h2 hin, mismatches_zero_window]
    · obtain ⟨k, rfl⟩ : ∃ k, o = 4 * k := ⟨o / 4, by omega⟩
      by_cases hk : k < 25
      · exact embedAt100_code_overlap_before k hk (by omega)
      · exact embedAt100_code_overlap_after k (by omega) (by omega)

/-- When the 30 bytes at offset 100 differ from `code` in exactly 10 positions,
no aligned window inside the buffer is within the tolerance. -/
theorem embedAt100_no_match (w : List Nat) (hw : w.length = 30)
    (h10 : mismatches w code = 10) :
    ∀ o, o % 4 = 0 → o + 30 ≤ (embedAt100 w).length →
      8 ≤ mismatches (window (embedAt100 w) o) code := by
  intro o h4 hin
  have hlen := embedAt100_length w hw
  have hlenc := embedAt100_length code code_length
  rw [hlen] at hin
  by_cases h100 : o = 100
  · subst h100
    rw [window_embedAt100_at w hw, h10]
    omega
  · have hbase := embedAt100_code_windows o h4 h100 hin
    have hdiff : mismatches (window (embedAt100 code) o) (window (embedAt100 w) o) ≤ 10 := by
      refine le_trans (mismatches_window_le _ _ o) ?_
      unfold embedAt100
      rw [mismatches_append _ _ _ _ (by simp only [List.length_append, List.length_replicate,
            hw, code_length]),
        mismatches_append _ _ _ _ rfl, mismatches_self, mismatches_self,
        mismatches_comm code w, h10]
    have htri := mismatches_triangle (window (embedAt100 code) o) (window (embedAt100 w) o) code
      (by rw [window_length _ o (by rw [hlenc]; exact hin),
            window_length _ o (by rw [hlen]; exact hin)])
      (by rw [window_length _ o (by rw [hlen]; exact hin), code_length])
    omega

/-! ## Buffers of more than 2 GiB -/

theorem ffThenCode_length (n : Nat) : (ffThenCode n).length = n + 132 := by
  unfold ffThenCode
  simp only [List.length_append, List.length_replicate, code_length]

theorem window_ffThenCode_at (n : Nat) : window (ffThenCode n) n = code := by
  unfold window ffThenCode
  rw [List.append_assoc, List.drop_left' (List.length_replicate n 0xFF),
    List.take_left' code_length]

theorem window_ffThenCode_head (n o : Nat) (h : o + 8 ≤ n) :
    (window (ffThenCode n) o).take 8 = List.replicate 8 0xFF := by
  unfold window ffThenCode
  rw [List.take_take, List.append_assoc,
    List.drop_append_of_le_length (by rw [List.length_replicate]; omega),
    List.take_append_of_le_length (by rw [List.length_drop, List.length_replicate]; omega),
    List.drop_replicate, List.take_replicate]
  have e : min (min 8 30) (n - o) = 8 := by omega
  rw [e]

/-- A window that starts with eight bytes 0xFF is not within the tolerance. -/
theorem mismatches_ff_head (w : List Nat) (h : w.take 8 = List.replicate 8 0xFF) :
    8 ≤ mismatches w code := by
  have h1 := mismatches_take_le 8 w code
  rw [h] at h1
  have h2 : mismatches (List.replicate 8 0xFF) (code.take 8) = 8 := by decide
  omega

theorem mismatches_window_ffThenCode_last (n : Nat) (h : 4 ≤ n) :
    8 ≤ mismatches (window (ffThenCode n) (n - 4)) code := by
  unfold window ffThenCode
  rw [List.append_assoc,
    List.drop_append_of_le_length (by rw [List.length_replicate]; omega),
    List.drop_replicate]
  have e : n - (n - 4) = 4 := by omega
  rw [e]
  decide

/-- No aligned window in front of the copy of `code` is within the tolerance. -/
theorem ffThenCode_before (n : Nat) (hn : n % 4 = 0) :
    ∀ j, 4 * j < n → 8 ≤ mismatches (window (ffThenCode n) (4 * j)) code := by
  intro j hj
  by_cases h8 : 4 * j + 8 ≤ n
  · exact mismatches_ff_head _ (window_ffThenCode_head n (4 * j) h8)
  · have e : 4 * j = n - 4 := by omega
    rw [e]
    exact mismatches_window_ffThenCode_last n (by omega)

theorem farBuffer_length : farBuffer.length = 2147483776 :=
  ffThenCode_length 2147483644

theorem fartherBuffer_length : fartherBuffer.length = 2147483780 :=
  ffThenCode_length 2147483648

/-- In the buffer with `code` at 2147483644 the scan returns 2147483644,
whatever the pointer yields behind the buffer. -/
theorem farBuffer_scan (p : Ptr) (hp : ∀ i, i < farBuffer.length → p i = farBuffer[i]?) :
    findSelectSong p farBuffer.length = Outcome.ret 2147483644 := by
  have key := scanLoop_found farBuffer p hp 536870911 (farBuffer.length + 1) 0
    (by rw [farBuffer_length]; omega) (by omega) (by rw [farBuffer_length]; omega)
    (fun j hj => by
      have := ffThenCode_before 2147483644 (by omega) j (by omega)
      simpa [farBuffer] using this)
    (by
      have e : 0 + 4 * 536870911 = 2147483644 := by omega
      rw [e]
      show mismatches (window (ffThenCode 2147483644) 2147483644) code < 8
      rw [window_ffThenCode_at, mismatches_self]
      omega)
  have e : (((0 + 4 * 536870911 : Nat)) : Int) = 2147483644 := by omega
  rw [e] at key
  exact key

/-- In the buffer with `code` at 2147483648 the increment of `offset` wraps
before the loop reaches the copy, and the scan returns -1. -/
theorem fartherBuffer_scan (p : Ptr)
    (hp : ∀ i, i < fartherBuffer.length → p i = fartherBuffer[i]?) :
    findSelectSong p fartherBuffer.length = Outcome.ret (-1) :=
  findSelectSong_match_past_int fartherBuffer p hp 536870912 (by omega)
    (by rw [fartherBuffer_length]; omega)
    (fun j hj => ffThenCode_before 2147483648 (by omega) j (by omega))

/-! ## Claims -/

theorem ptrBeyond_none (bytes : List Nat) : ptrBeyond bytes (fun _ => none) = ptrOf bytes := by
  funext i
  simp only [ptrBeyond, ptrOf]
  cases bytes[i]? <;> rfl

/-- C1, as stated, fails in two ways.  In a buffer holding `code` at offsets 0
and 32 the window at the aligned offset 32 is exact and inside the buffer, yet
`findSelectSong` returns 0, the earlier match.  In a buffer holding `code` at
offset 2147483648 only, behind bytes 0xFF, the window there is exact and no
earlier aligned window is within the tolerance, yet `findSelectSong` returns -1:
the `int` offset wraps before it reaches 2147483648. -/
theorem C1_counterexample :
    (32 % 4 = 0 ∧ 32 + 30 ≤ twoCopies.length ∧ mismatches (window twoCopies 32) code ≤ 7 ∧
        findSelectSong (ptrOf twoCopies) twoCopies.length = Outcome.ret 0 ∧
        findSelectSong (ptrOf twoCopies) twoCopies.length ≠ Outcome.ret 32) ∧
      (2147483648 % 4 = 0 ∧ 2147483648 + 30 ≤ fartherBuffer.length ∧
        mismatches (window fartherBuffer 2147483648) code ≤ 7 ∧
        (∀ o', o' < 2147483648 → o' % 4 = 0 →
          8 ≤ mismatches (window fartherBuffer o') code) ∧
        findSelectSong (ptrOf fartherBuffer) fartherBuffer.length = Outcome.ret (-1) ∧
        findSelectSong (ptrOf fartherBuffer) fartherBuffer.length
          ≠ Outcome.ret 2147483648) := by
  have hscan := fartherBuffer_scan (ptrOf fartherBuffer) (ptrOf_agree fartherBuffer)
  refine ⟨by decide, by omega, by rw [fartherBuffer_length]; omega, ?_, ?_, hscan, ?_⟩
  · show mismatches (window (ffThenCode 2147483648) 2147483648) code ≤ 7
    rw [window_ffThenCode_at, mismatches_self]
    omega
  · intro o' ho' h4
    obtain ⟨j, rfl⟩ : ∃ j, o' = 4 * j := ⟨o' / 4, by omega⟩
    exact ffThenCode_before 2147483648 (by omega) j ho'
  · rw [hscan]
    intro h
    simp only [Outcome.ret.injEq] at h
    omega

/-- C1, amended: for every buffer, whatever lies behind it, and every offset
`o` that is a multiple of 4 with `o + 30 ≤ length` and `o ≤ 2147483647`, if the
30 bytes at `o` differ from `code` in at most 7 positions and the window at
every smaller multiple of 4 differs from `code` in at least 8 positions, then
`findSelectSong` returns `o`. -/
theorem findSelectSong_returns_first_match (bytes : List Nat) (beyond : Nat → Option Nat)
    (o : Nat) (ho : o % 4 = 0) (hin : o + 30 ≤ bytes.length) (hmax : o ≤ 2147483647)
    (hm : mismatches (window bytes o) code ≤ 7)
    (hfirst : ∀ o', o' < o → o' % 4 = 0 → 8 ≤ mismatches (window bytes o') code) :
    findSelectSong (ptrBeyond bytes beyond) bytes.length = Outcome.ret (o : Int) := by
  obtain ⟨k, rfl⟩ : ∃ k, o = 4 * k := ⟨o / 4, by omega⟩
  have key := scanLoop_found bytes (ptrBeyond bytes beyond) (ptrBeyond_inside bytes beyond) k
    (bytes.length + 1) 0 (by omega) (by omega) (by omega)
    (fun j hj => by
      have := hfirst (4 * j) (by omega) (by omega)
      simpa using this)
    (by simpa using Nat.lt_succ_of_le hm)
  simpa [findSelectSong, findSelectSongTol] using key

/-- Witness of C1 amended: `code` behind four zero bytes is found at offset 4,
with nothing readable behind the buffer. -/
theorem findSelectSong_returns_first_match_witness :
    findSelectSong (ptrBeyond copyAtFour (fun _ => none)) copyAtFour.length
      = Outcome.ret ((4 : Nat) : Int) :=
  findSelectSong_returns_first_match copyAtFour (fun _ => none) 4 (by decide) (by decide)
    (by decide) (by decide) (by decide)

/-- C3, the code at a failing input: on the 4-byte buffer `00 B5 00 04` the loop
enters offset 0 (its bound is `offset < length`) and the matcher reads index 4,
past the end, so the call is undefined instead of returning -1; and called with
length 4 on memory that goes on with the rest of `code`, it returns 0. -/
theorem C3_overhanging_window :
    codeHead.length = 4 ∧
      findSelectSong (ptrOf codeHead) codeHead.length = Outcome.undefined ∧
      findSelectSong (ptrOf code) 4 = Outcome.ret 0 := by
  decide

/-- C4, as stated, fails: in the buffer of 2147483776 bytes with `code` at
offset 2147483644 the scan yields `o = 2147483644` and `o + 40` is below the
length, but `selectSongOffset += 40` wraps to a negative `int` and the final
result is -1, not `o + 40`. -/
theorem C4_counterexample :
    findSelectSong (ptrOf farBuffer) farBuffer.length = Outcome.ret 2147483644 ∧
      (2147483644 : Int) + 40 < (farBuffer.length : Int) ∧
      findSongTable (ptrOf farBuffer) farBuffer.length = Outcome.ret (-1) ∧
      findSongTable (ptrOf farBuffer) farBuffer.length ≠ Outcome.ret (2147483644 + 40) := by
  have hscan := farBuffer_scan (ptrOf farBuffer) (ptrOf_agree farBuffer)
  have hfinal : findSongTable (ptrOf farBuffer) farBuffer.length = Outcome.ret (-1) := by
    rw [findSongTable_eq_tablePointer, hscan,
      tablePointer_ret 2147483644 farBuffer.length (by omega) (by omega),
      if_neg (fun h => by omega)]
  refine ⟨hscan, by rw [farBuffer_length]; omega, hfinal, ?_⟩
  rw [hfinal]
  intro h
  simp only [Outcome.ret.injEq] at h
  omega

/-- C4, amended: if the scan yields -1 the final result is -1; if it yields an
offset `o` and `o + 40 ≥ size`, or `o + 40` is above 2147483647, the largest
`int`, the final result is -1; otherwise it is `o + 40`. -/
theorem findSongTable_resolution (buffer : Ptr) (size : Nat) :
    (findSelectSong buffer size = Outcome.ret (-1) →
        findSongTable buffer size = Outcome.ret (-1)) ∧
      ∀ o : Int, o ≠ -1 → findSelectSong buffer size = Outcome.ret o →
        (o + 40 ≥ (size : Int) ∨ o + 40 > 2147483647 →
          findSongTable buffer size = Outcome.ret (-1)) ∧
        (o + 40 < (size : Int) → o + 40 ≤ 2147483647 →
          findSongTable buffer size = Outcome.ret (o + 40)) := by
  refine ⟨fun h => ?_, fun o ho h => ?_⟩
  · rw [findSongTable_eq_tablePointer, h]
    exact tablePointer_not_found size
  · rcases findSelectSong_range buffer size o h with h1 | ⟨h0, h1, _, _⟩
    · exact absurd h1 ho
    · rw [findSongTable_eq_tablePointer, h, tablePointer_ret o size h0 h1]
      refine ⟨fun hge => ?_, fun hlt h40 => ?_⟩
      · rw [if_neg (fun hc => by omega)]
      · rw [if_pos ⟨hlt, h40⟩]

/-- Witness of C4 amended: the empty buffer (scan -1), `code` alone (offset 0,
40 ≥ 30), `code` followed by twenty zero bytes (offset 0, 40 < 50), and the
buffer with `code` at 2147483644 (`o + 40` above the largest `int`). -/
theorem findSongTable_resolution_witness :
    findSongTable (ptrOf []) 0 = Outcome.ret (-1) ∧
      findSongTable (ptrOf code) 30 = Outcome.ret (-1) ∧
      findSongTable (ptrOf codeThenZeros) 50 = Outcome.ret (0 + 40) ∧
      findSongTable (ptrOf farBuffer) farBuffer.length = Outcome.ret (-1) :=
  ⟨(findSongTable_resolution (ptrOf []) 0).1 (by decide),
   ((findSongTable_resolution (ptrOf code) 30).2 0 (by decide) (by decide)).1
     (Or.inl (by decide)),
   ((findSongTable_resolution (ptrOf codeThenZeros) 50).2 0 (by decide) (by decide)).2
     (by decide) (by decide),
   ((findSongTable_resolution (ptrOf farBuffer) farBuffer.length).2 2147483644 (by decide)
     (farBuffer_scan (ptrOf farBuffer) (ptrOf_agree farBuffer))).1 (Or.inr (by decide))⟩

/-- C5, the code at a failing input: on a buffer of one byte the loop calls the
matcher at offset 0, where `0 + 30 > 1`; the matcher reads index 1, outside the
buffer, and the out-of-bounds branch is reached. -/
theorem C5_reads_past_end :
    oneByte.length = 1 ∧
      looseCompare (ptrAt (ptrOf oneByte) 0) (ptrOf code) 30 8 = Outcome.undefined ∧
      findSelectSong (ptrOf oneByte) oneByte.length = Outcome.undefined := by
  decide

/-- C6: for every tolerance `m ≥ 0`, every `count`, and every window and pattern
of `count` bytes that differ in exactly `k` positions, `looseCompare` returns
`min k m`. -/
theorem looseCompare_returns_min (m count : Int) (hm : 0 ≤ m) (w p : List Nat) (k : Nat)
    (hw : (w.length : Int) = count) (hp : (p.length : Int) = count)
    (hk : mismatches w p = k) :
    looseCompare (ptrOf w) (ptrOf p) count m = Outcome.ret (min (k : Int) m) := by
  subst hk
  by_cases h0 : m ≤ 0
  · have hm0 : m = 0 := le_antisymm h0 hm
    subst hm0
    simp [looseCompare]
  · have hl : w.length = p.length := by omega
    have hc : count.toNat = w.length := by omega
    have key := looseCompareLoop_eq (ptrOf w) (ptrOf p) m w p 0 0 hl (by omega)
      (fun j _ => by simp [ptrOf]) (fun j _ => by simp [ptrOf])
    simp only [looseCompare, h0, if_false, hc]
    simpa using key

/-- Witness of C6: four bytes of which three differ, with tolerance 2, give 2. -/
theorem looseCompare_returns_min_witness :
    looseCompare (ptrOf [1, 2, 3, 4]) (ptrOf [1, 9, 9, 9]) 4 2
      = Outcome.ret (min ((3 : Nat) : Int) 2) :=
  looseCompare_returns_min 2 4 (by decide) [1, 2, 3, 4] [1, 9, 9, 9] 3 (by decide)
    (by decide) (by decide)

/-- C7, as stated, fails: the window at offset 0 of `eightOff` lies inside the
buffer, no window comes before it, and it differs from `code` in exactly 8
positions; `looseCompare` returns 8 for it, the test `8 < 8` rejects it, and
`findSelectSong` returns 32, the offset of the exact copy behind it, not 0. -/
theorem C7_eight_differences_rejected :
    eightOff.length = 62 ∧ (window eightOff 0).length = 30 ∧
      mismatches (window eightOff 0) code = 8 ∧
      looseCompare (ptrAt (ptrOf eightOff) 0) (ptrOf code) 30 8 = Outcome.ret 8 ∧
      findSelectSong (ptrOf eightOff) eightOff.length = Outcome.ret 32 ∧
      findSelectSong (ptrOf eightOff) eightOff.length ≠ Outcome.ret 0 := by
  decide

/-- C7, amended: the search allows fewer than 8 differences.  For every buffer,
whatever lies behind it, a window inside the buffer at a multiple of 4 that an
`int` holds, with no window within the tolerance at a smaller multiple of 4, is
accepted and its offset returned by `findSelectSong` exactly when it differs
from `code` in at most 7 positions. -/
theorem findSelectSong_accepts_iff (bytes : List Nat) (beyond : Nat → Option Nat) (o : Nat)
    (ho : o % 4 = 0) (hin : o + 30 ≤ bytes.length) (hmax : o ≤ 2147483647)
    (hfirst : ∀ o', o' < o → o' % 4 = 0 → 8 ≤ mismatches (window bytes o') code) :
    findSelectSong (ptrBeyond bytes beyond) bytes.length = Outcome.ret (o : Int) ↔
      mismatches (window bytes o) code ≤ 7 := by
  obtain ⟨k, rfl⟩ : ∃ k, o = 4 * k := ⟨o / 4, by omega⟩
  have hag := ptrBeyond_inside bytes beyond
  constructor
  · intro h
    rcases scanLoop_ret_general _ bytes.length 8 _ (bytes.length + 1) 0 (by omega) h with
      h1 | ⟨k', hk1, _, _, ⟨x, hx1, hx2⟩, _⟩
    · omega
    · have hkk : k' = k := by omega
      subst hkk
      rw [looseCompare_window_agree bytes _ hag (0 + 4 * k') 8 (by norm_num) (by omega),
        Outcome.ret.injEq] at hx1
      rw [← hx1, min_cast_lt_eight] at hx2
      simp only [Nat.zero_add] at hx2
      omega
  · intro hm
    have key := scanLoop_found bytes (ptrBeyond bytes beyond) hag k (bytes.length + 1) 0
      (by omega) (by omega) (by omega)
      (fun j hj => by
        have := hfirst (4 * j) (by omega) (by omega)
        simpa using this)
      (by simpa using Nat.lt_succ_of_le hm)
    simpa [findSelectSong, findSelectSongTol] using key

/-- Witness of C7 amended: at offset 0 of `eightOff`, where 8 positions differ,
the offset 0 is not returned and the count is not at most 7; the theorem links
the two. -/
theorem findSelectSong_accepts_iff_witness :
    (findSelectSong (ptrBeyond eightOff (fun _ => none)) eightOff.length
        = Outcome.ret ((0 : Nat) : Int) ↔
      mismatches (window eightOff 0) code ≤ 7) ∧
      ¬ mismatches (window eightOff 0) code ≤ 7 :=
  ⟨findSelectSong_accepts_iff eightOff (fun _ => none) 0 (by decide) (by decide) (by decide)
    (fun o' ho' _ => absurd ho' (Nat.not_lt_zero o')), by decide⟩

/-- C8: for every tolerance `m ≤ 0` and every window, pattern and count,
`looseCompare` returns 0; the test `looseCompare(...) < m` is false for what it
returns; and the scan run with that tolerance returns -1 for every buffer. -/
theorem nonpositive_tolerance_rejects (m : Int) (hm : m ≤ 0) (buffer search : Ptr)
    (count : Int) (length : Nat) :
    looseCompare buffer search count m = Outcome.ret 0 ∧
      (∀ r : Int, looseCompare buffer search count m = Outcome.ret r → ¬ r < m) ∧
      findSelectSongTol buffer length m = Outcome.ret (-1) := by
  have h0 : looseCompare buffer search count m = Outcome.ret 0 := by
    simp [looseCompare, hm]
  refine ⟨h0, fun r hr => ?_, ?_⟩
  · rw [h0, Outcome.ret.injEq] at hr
    omega
  · exact scanLoop_nonpos buffer length m hm (length + 1) 0 (by omega) (by omega) (by omega)

/-- Witness of C8: with tolerance 0 the exact pattern itself is rejected. -/
theorem nonpositive_tolerance_rejects_witness :
    looseCompare (ptrOf code) (ptrOf code) 30 0 = Outcome.ret 0 ∧
      (∀ r : Int, looseCompare (ptrOf code) (ptrOf code) 30 0 = Outcome.ret r → ¬ r < 0) ∧
      findSelectSongTol (ptrOf code) 30 0 = Outcome.ret (-1) :=
  nonpositive_tolerance_rejects 0 (by decide) (ptrOf code) (ptrOf code) 30 30

set_option maxRecDepth 20000 in
/-- C10: in the buffer of 1000 bytes that is zero except for `code` at bytes
100..129, no 4-aligned window before 100 is within the tolerance, the scan
returns 100 and the final result is 140. -/
theorem zeroRom_end_to_end :
    zeroRom.length = 1000 ∧ zeroRom.take 100 = List.replicate 100 0 ∧
      window zeroRom 100 = code ∧ zeroRom.drop 130 = List.replicate 870 0 ∧
      (∀ o', o' < 100 → o' % 4 = 0 → 8 ≤ mismatches (window zeroRom o') code) ∧
      findSelectSong (ptrOf zeroRom) 1000 = Outcome.ret 100 ∧
      findSongTable (ptrOf zeroRom) 1000 = Outcome.ret 140 := by
  have hlen : zeroRom.length = 1000 := by decide
  have hbefore : ∀ j, j < 25 → 8 ≤ mismatches (window zeroRom (0 + 4 * j)) code := by
    decide
  have hscan : findSelectSong (ptrOf zeroRom) 1000 = Outcome.ret 100 := by
    have key := scanLoop_found zeroRom (ptrOf zeroRom) (ptrOf_agree zeroRom) 25
      (zeroRom.length + 1) 0 (by rw [hlen]; omega) (by omega) (by rw [hlen]; omega) hbefore
      (by decide)
    rw [hlen] at key
    simpa [findSelectSong, findSelectSongTol] using key
  refine ⟨hlen, by decide, by decide, by decide, ?_, hscan, ?_⟩
  · intro o' ho' h4
    obtain ⟨j, rfl⟩ : ∃ j, o' = 4 * j := ⟨o' / 4, by omega⟩
    have := hbefore j (by omega)
    simpa using this
  · rw [findSongTable_eq_tablePointer, hscan]
    decide

/-- C11, the code at a failing input: in the buffer of 1000 bytes that is zero
outside bytes 100..129 and holds `code` with its first ten bytes replaced there,
no aligned window inside the buffer is within the tolerance, as the claim says;
but the loop goes on to offset 992, whose window has eight bytes inside the
buffer with six differences, the matcher reads index 1000, and scan and final
result are undefined instead of -1. -/
theorem C11_corrupted_reads_past_end :
    tenOff.length = 30 ∧ mismatches tenOff code = 10 ∧ (embedAt100 tenOff).length = 1000 ∧
      (∀ o, o % 4 = 0 → o + 30 ≤ (embedAt100 tenOff).length →
        8 ≤ mismatches (window (embedAt100 tenOff) o) code) ∧
      findSelectSong (ptrOf (embedAt100 tenOff)) (embedAt100 tenOff).length
        = Outcome.undefined ∧
      findSongTable (ptrOf (embedAt100 tenOff)) (embedAt100 tenOff).length
        = Outcome.undefined := by
  have hw : tenOff.length = 30 := by decide
  have h10 : mismatches tenOff code = 10 := by decide
  have hno := embedAt100_no_match tenOff hw h10
  have hne : embedAt100 tenOff ≠ [] := by
    intro h
    have := embedAt100_length tenOff hw
    rw [h] at this
    simp at this
  have hscan := findSelectSong_undefined_of_no_match (embedAt100 tenOff) hne
    (by rw [embedAt100_length tenOff hw]; omega) hno
  refine ⟨hw, h10, embedAt100_length tenOff hw, hno, hscan, ?_⟩
  rw [findSongTable_eq_tablePointer, hscan]
  rfl

/-- C12, the code at a failing input: on a buffer of 29 bytes 0xFF the loop calls
the matcher at offsets 0 to 24; the window at 24 has five bytes inside the
buffer, the matcher reads index 29, and scan and final result are undefined
instead of -1. -/
theorem C12_short_buffer_reads_past_end :
    shortBuffer.length = 29 ∧
      findSelectSong (ptrOf shortBuffer) shortBuffer.length = Outcome.undefined ∧
      findSongTable (ptrOf shortBuffer) shortBuffer.length = Outcome.undefined := by
  decide

/-- C13: for every tolerance `m > 0` and every `count`, when the window equals
the pattern over the first `count` positions, `looseCompare` returns 0. -/
theorem looseCompare_identical (m count : Int) (hm : 0 < m) (w p : List Nat)
    (hw : count.toNat ≤ w.length) (hp : count.toNat ≤ p.length)
    (hsame : w.take count.toNat = p.take count.toNat) :
    looseCompare (ptrOf w) (ptrOf p) count m = Outcome.ret 0 := by
  rw [looseCompare_take w p count m hm hw hp, hsame, mismatches_self]
  congr 1
  exact min_eq_left (le_of_lt hm)

/-- Witness of C13: `code` against itself over all 30 positions, tolerance 8. -/
theorem looseCompare_identical_witness :
    looseCompare (ptrOf code) (ptrOf code) 30 8 = Outcome.ret 0 :=
  looseCompare_identical 8 30 (by decide) code code (by decide) (by decide) rfl

/-- C14: for every integer `m`, every `count` and every window and pattern that
hold `count` bytes, `looseCompare` returns a value `r`, and `r < m` holds exactly
when the full number of differing positions among the first `count` is below
`m` and `m > 0`. -/
theorem looseCompare_decision (m count : Int) (w p : List Nat)
    (hw : count.toNat ≤ w.length) (hp : count.toNat ≤ p.length) :
    ∃ r : Int, looseCompare (ptrOf w) (ptrOf p) count m = Outcome.ret r ∧
      (r < m ↔
        ((mismatches (w.take count.toNat) (p.take count.toNat) : Int) < m ∧ 0 < m)) := by
  by_cases hm : 0 < m
  · refine ⟨_, looseCompare_take w p count m hm hw hp, ?_⟩
    rw [min_lt_iff]
    constructor
    · rintro (h | h)
      · exact ⟨h, hm⟩
      · omega
    · rintro ⟨h, _⟩
      exact Or.inl h
  · refine ⟨0, by simp [looseCompare, not_lt.mp hm], ?_⟩
    constructor
    · intro h; omega
    · rintro ⟨_, h⟩; omega

/-- Witness of C14: three differences in four bytes, tolerance 2: the call
returns 2 and the window is rejected, as the full count 3 says. -/
theorem looseCompare_decision_witness :
    ∃ r : Int, looseCompare (ptrOf [1, 2, 3, 4]) (ptrOf [1, 9, 9, 9]) 4 2 = Outcome.ret r ∧
      (r < 2 ↔
        ((mismatches ([1, 2, 3, 4].take (4 : Int).toNat)
            ([1, 9, 9, 9].take (4 : Int).toNat) : Int) < 2 ∧ (0 : Int) < 2)) :=
  looseCompare_decision 2 4 [1, 2, 3, 4] [1, 9, 9, 9] (by decide) (by decide)

/-- C15, as stated, fails: with tolerance -1 `looseCompare` returns 0, and 0 is
not in the interval from 0 to -1. -/
theorem C15_counterexample :
    ∃ r : Int, looseCompare (ptrOf code) (ptrOf code) 30 (-1) = Outcome.ret r ∧
      ¬ (0 ≤ r ∧ r ≤ -1) :=
  ⟨0, by decide, by decide⟩

/-- C15, amended: for every integer `m`, every `count` and every window and
pattern that hold `count` bytes, the value `looseCompare` returns lies between 0
and `m` when `m ≥ 0`, and is 0 when `m < 0`. -/
theorem looseCompare_range (m count : Int) (w p : List Nat)
    (hw : count.toNat ≤ w.length) (hp : count.toNat ≤ p.length) :
    ∃ r : Int, looseCompare (ptrOf w) (ptrOf p) count m = Outcome.ret r ∧
      (0 ≤ m → 0 ≤ r ∧ r ≤ m) ∧ (m < 0 → r = 0) := by
  by_cases hm : 0 < m
  · refine ⟨_, looseCompare_take w p count m hm hw hp, fun _ => ⟨?_, min_le_right _ _⟩,
      fun h => by omega⟩
    exact le_min (Int.ofNat_nonneg _) (le_of_lt hm)
  · refine ⟨0, by simp [looseCompare, not_lt.mp hm], fun h => ⟨le_refl _, h⟩, fun _ => rfl⟩

/-- Witness of C15 amended: three differences in four bytes, tolerance 2. -/
theorem looseCompare_range_witness :
    ∃ r : Int, looseCompare (ptrOf [1, 2, 3, 4]) (ptrOf [1, 9, 9, 9]) 4 2 = Outcome.ret r ∧
      ((0 : Int) ≤ 2 → 0 ≤ r ∧ r ≤ 2) ∧ ((2 : Int) < 0 → r = 0) :=
  looseCompare_range 2 4 [1, 2, 3, 4] [1, 9, 9, 9] (by decide) (by decide)

/-- C16, the code against its comment: `code` has 30 bytes and agrees with the
little-endian bytes of the listed halfwords at every index but 21 and 29: byte
21 is 0x18 where the listed halfword 1989 has the high byte 0x19, and byte 29 is
0xF0 where the listed halfword 0f00 has the high byte 0x0F. -/
theorem C16_array_against_comment :
    code.length = 30 ∧ (littleEndian listedHalfwords).length = 30 ∧
      (∀ i, i < 30 → i ≠ 21 → i ≠ 29 → code[i]? = (littleEndian listedHalfwords)[i]?) ∧
      code[21]? = some 0x18 ∧ (littleEndian listedHalfwords)[21]? = some 0x19 ∧
      code[29]? = some 0xF0 ∧ (littleEndian listedHalfwords)[29]? = some 0x0F := by
  decide

/-- C18: for every buffer, whatever the reads behind it yield, if the final
result `v` is not -1 then `40 ≤ v < length`, `v` is a multiple of 4, and the
window at `v - 40` lies inside the buffer and differs from `code` in fewer than
8 positions. -/
theorem findSongTable_well_formed (bytes : List Nat) (beyond : Nat → Option Nat) (v : Int)
    (h : findSongTable (ptrBeyond bytes beyond) bytes.length = Outcome.ret v)
    (hv : v ≠ -1) :
    40 ≤ v ∧ v < (bytes.length : Int) ∧ v % 4 = 0 ∧
      (v - 40).toNat + 30 ≤ bytes.length ∧
      mismatches (window bytes (v - 40).toNat) code < 8 := by
  rw [findSongTable_eq_tablePointer] at h
  cases hs : findSelectSong (ptrBeyond bytes beyond) bytes.length with
  | ret o =>
    rw [hs] at h
    rcases scanLoop_ret_general _ bytes.length 8 o (bytes.length + 1) 0 (by omega) hs with
      h1 | ⟨k, hk1, _, hk3, ⟨x, hx1, hx2⟩, _⟩
    · rw [h1, tablePointer_not_found, Outcome.ret.injEq] at h
      exact absurd h.symm hv
    · subst hk1
      simp only [Nat.zero_add] at hx1 hk3 h
      rw [tablePointer_ret _ bytes.length (Int.ofNat_nonneg _) (by exact_mod_cast hk3)] at h
      by_cases hc : ((4 * k : Nat) : Int) + 40 < (bytes.length : Int) ∧
          ((4 * k : Nat) : Int) + 40 ≤ 2147483647
      · rw [if_pos hc, Outcome.ret.injEq] at h
        subst h
        have hin : 4 * k + 30 ≤ bytes.length := by omega
        rw [looseCompare_window_agree bytes _ (ptrBeyond_inside bytes beyond) (4 * k) 8
          (by norm_num) hin, Outcome.ret.injEq] at hx1
        rw [← hx1, min_cast_lt_eight] at hx2
        have e : ((((4 * k : Nat) : Int) + 40) - 40).toNat = 4 * k := by omega
        rw [e]
        exact ⟨by omega, by omega, by omega, hin, hx2⟩
      · rw [if_neg hc, Outcome.ret.injEq] at h
        exact absurd h.symm hv
  | undefined => simp [hs, tablePointer] at h
  | outOfFuel => simp [hs, tablePointer] at h

/-- Witness of C18: `code` followed by twenty bytes 0x11 gives the final result
40 when the reads behind the buffer are undefined. -/
theorem findSongTable_well_formed_witness :
    (40 : Int) ≤ 40 ∧ (40 : Int) < (codeThenOnes.length : Int) ∧ (40 : Int) % 4 = 0 ∧
      ((40 : Int) - 40).toNat + 30 ≤ codeThenOnes.length ∧
      mismatches (window codeThenOnes ((40 : Int) - 40).toNat) code < 8 :=
  findSongTable_well_formed codeThenOnes (fun _ => none) 40 (by decide) (by decide)

/-- C19: for every window, pattern and `count` and all integers `m ≤ m'`, if
`looseCompare` with tolerance `m` returns a value `r < m`, then with tolerance
`m'` it returns the same `r`, `r < m'`, and `r` is the number of differing
positions among the first `count`. -/
theorem looseCompare_monotone (m m' count : Int) (hmm : m ≤ m') (w p : List Nat)
    (hw : count.toNat ≤ w.length) (hp : count.toNat ≤ p.length) (r : Int)
    (h : looseCompare (ptrOf w) (ptrOf p) count m = Outcome.ret r) (hr : r < m) :
    looseCompare (ptrOf w) (ptrOf p) count m' = Outcome.ret r ∧ r < m' ∧
      r = (mismatches (w.take count.toNat) (p.take count.toNat) : Int) := by
  have hm : 0 < m := by
    by_contra hneg
    simp only [looseCompare, not_lt.mp hneg, if_true, Outcome.ret.injEq] at h
    omega
  rw [looseCompare_take w p count m hm hw hp, Outcome.ret.injEq] at h
  have hk : (mismatches (w.take count.toNat) (p.take count.toNat) : Int) < m := by
    rcases min_lt_iff.mp (h ▸ hr) with h1 | h1
    · exact h1
    · omega
  have hrk : r = (mismatches (w.take count.toNat) (p.take count.toNat) : Int) := by
    rw [← h]; exact min_eq_left (le_of_lt hk)
  refine ⟨?_, by omega, hrk⟩
  rw [looseCompare_take w p count m' (by omega) hw hp, hrk]
  congr 1
  exact min_eq_left (by omega)

/-- Witness of C19: one difference in four bytes is accepted with tolerance 2
and with tolerance 8, and both calls return 1. -/
theorem looseCompare_monotone_witness :
    looseCompare (ptrOf [1, 2, 3, 4]) (ptrOf [1, 2, 3, 9]) 4 8 = Outcome.ret 1 ∧ (1 : Int) < 8 ∧
      (1 : Int) = (mismatches ([1, 2, 3, 4].take (4 : Int).toNat)
        ([1, 2, 3, 9].take (4 : Int).toNat) : Int) :=
  looseCompare_monotone 2 8 4 (by decide) [1, 2, 3, 4] [1, 2, 3, 9] (by decide) (by decide) 1
    (by decide) (by decide)

end FindSongtable
